import Mathlib

/-!
# Verification of the logalign match engine against its specification

This development shallowly embeds the core of the `logalign` repository
(Go sources `internal/view.go`, `internal/parse.go`, `internal/queue.go`)
into Lean and settles a list of claims about it.

Conventions of the embedding:
* Go `int` values are modelled as `Int` (64-bit overflow is out of scope for
  the quantities involved), `uint64` as `Nat`.
* Go `float64` configuration values (`MinMatchedRatio`) are modelled as `ℚ`;
  the Go conversion `uint64(f)` for `f ≥ 0` is modelled as `⌊f⌋` on `ℚ`.
* Go strings are byte strings; they are modelled as `String`/`List Char`
  (the claims under study only involve ASCII data, where byte positions and
  character positions coincide).
* Go maps are modelled as association lists with Go's insert-or-overwrite
  update; where Go map iteration order matters it is made explicit as the
  order of a list parameter.
* The external native regex engines (hyperscan, PCRE2) are oracles: their
  outputs (scan reports, confirmation results) are parameters of the model.
-/

namespace Logalign

/-! ## Order-preserving completion queue (`internal/queue.go`) -/

/-- State of `OrderPreservingCompletionQueue`: the sparse `results` map
(association list, keys are sequence numbers), `nextID`, and the list of
items forwarded to `completionChan` so far (in forwarding order). -/
structure QState (T : Type) where
  results : List (Nat × T)
  nextID : Nat
  output : List T
  deriving Repr

/-- Association-list lookup (Go map read). -/
def alookup {κ T : Type} [DecidableEq κ] : List (κ × T) → κ → Option T
  | [], _ => none
  | (k, v) :: rest, q => if k = q then some v else alookup rest q

/-- Remove the first entry with the given key (Go `delete`). -/
def aerase {T : Type} : List (Nat × T) → Nat → List (Nat × T)
  | [], _ => []
  | (k, v) :: rest, q => if k = q then rest else (k, v) :: aerase rest q

/-- The drain loop of `OrderPreservingCompletionQueue.Push`: while `nextID`
is present in `results`, delete it, forward the item and increment `nextID`.
`fuel` bounds the number of iterations; `Push` supplies `results.length`,
which is sufficient because every iteration removes one entry. -/
def drainFuel {T : Type} : Nat → QState T → QState T
  | 0, s => s
  | fuel + 1, s =>
    match alookup s.results s.nextID with
    | some item =>
      drainFuel fuel
        ⟨aerase s.results s.nextID, s.nextID + 1, s.output ++ [item]⟩
    | none => s

/-- `OrderPreservingCompletionQueue.Push`: insert under the key, then, only
when the pushed index equals `nextID`, run the drain loop. -/
def qpush {T : Type} (s : QState T) (idx : Nat) (item : T) : QState T :=
  let s' : QState T := ⟨(idx, item) :: s.results, s.nextID, s.output⟩
  if idx = s.nextID then drainFuel s'.results.length s' else s'

/-- The queue as created by `NewOrderPreservingCompletionQueue`. -/
def qinit (T : Type) : QState T := ⟨[], 0, []⟩

/-- Run a sequence of `Push` calls in order. -/
def runPushes {T : Type} (s : QState T) : List (Nat × T) → QState T
  | [] => s
  | (i, x) :: rest => runPushes (qpush s i x) rest

/-- Invariant of the completion queue relative to the list `done` of pushes
performed so far: keys are unique, `nextID` is not pending, the pending map
holds exactly the pushed entries with index `≥ nextID`, every index below
`nextID` has been pushed, and the forwarded output lists the pushed items of
indices `0, …, nextID - 1` in order. -/
structure QInv {T : Type} (done : List (Nat × T)) (s : QState T) : Prop where
  nodup : (s.results.map Prod.fst).Nodup
  atRest : alookup s.results s.nextID = none
  keys : ∀ k v, alookup s.results k = some v ↔
    (alookup done k = some v ∧ s.nextID ≤ k)
  below : ∀ i, i < s.nextID → (alookup done i).isSome
  out : s.output = (List.range s.nextID).filterMap (fun i => alookup done i)

lemma alookup_isSome_iff_mem {κ T : Type} [DecidableEq κ]
    (l : List (κ × T)) (k : κ) :
    (alookup l k).isSome ↔ k ∈ l.map Prod.fst := by
  induction l with
  | nil => simp [alookup]
  | cons p rest ih =>
    obtain ⟨k', v⟩ := p
    by_cases h : k' = k
    · subst h
      simp [alookup]
    · have h2 : ¬ k = k' := fun hh => h hh.symm
      simp [alookup, h, h2, ih]

lemma alookup_append {κ T : Type} [DecidableEq κ]
    (l₁ l₂ : List (κ × T)) (k : κ) :
    alookup (l₁ ++ l₂) k =
      match alookup l₁ k with
      | some v => some v
      | none => alookup l₂ k := by
  induction l₁ with
  | nil => simp [alookup]
  | cons p rest ih =>
    obtain ⟨k', v⟩ := p
    by_cases h : k' = k <;> simp [alookup, h, ih]

lemma aerase_sublist {T : Type} (l : List (Nat × T)) (q : Nat) :
    (aerase l q).Sublist l := by
  induction l with
  | nil => simp [aerase]
  | cons p rest ih =>
    obtain ⟨k, v⟩ := p
    by_cases h : k = q
    · simp [aerase, h]
    · simpa [aerase, h] using ih.cons₂ (k, v)

lemma length_aerase_lt {T : Type} (l : List (Nat × T)) (q : Nat) (v : T)
    (h : alookup l q = some v) : (aerase l q).length < l.length := by
  induction l with
  | nil => simp [alookup] at h
  | cons p rest ih =>
    obtain ⟨k, w⟩ := p
    by_cases hk : k = q
    · simp [aerase, hk]
    · simp only [alookup, hk, if_false] at h
      simpa [aerase, hk] using ih h

lemma alookup_aerase_self {T : Type} (l : List (Nat × T)) (q : Nat)
    (hnd : (l.map Prod.fst).Nodup) : alookup (aerase l q) q = none := by
  induction l with
  | nil => simp [aerase, alookup]
  | cons p rest ih =>
    obtain ⟨k, v⟩ := p
    simp only [List.map_cons, List.nodup_cons] at hnd
    by_cases hk : k = q
    · subst hk
      rw [show aerase ((k, v) :: rest) k = rest by simp [aerase]]
      rcases h : alookup rest k with _ | w
      · rfl
      · exact absurd ((alookup_isSome_iff_mem rest k).mp (by simp [h])) hnd.1
    · simpa [aerase, hk, alookup] using ih hnd.2

lemma alookup_aerase_ne {T : Type} (l : List (Nat × T)) (q k : Nat)
    (h : k ≠ q) : alookup (aerase l q) k = alookup l k := by
  induction l with
  | nil => simp [aerase]
  | cons p rest ih =>
    obtain ⟨k', v⟩ := p
    by_cases hk : k' = q
    · have hne : ¬ q = k := fun hh => h hh.symm
      simp [aerase, alookup, hk, hne]
    · by_cases hk2 : k' = k <;> simp [aerase, alookup, hk, hk2, h, ih]

lemma drain_inv {T : Type} (done : List (Nat × T)) :
    ∀ (fuel : Nat) (s : QState T),
    s.results.length ≤ fuel →
    (s.results.map Prod.fst).Nodup →
    (∀ k v, alookup s.results k = some v ↔
      (alookup done k = some v ∧ s.nextID ≤ k)) →
    (∀ i, i < s.nextID → (alookup done i).isSome) →
    s.output = (List.range s.nextID).filterMap (fun i => alookup done i) →
    QInv done (drainFuel fuel s) := by
  intro fuel
  induction fuel with
  | zero =>
    intro s hlen hnd hkeys hbelow hout
    have hres : s.results = [] := List.length_eq_zero.mp (Nat.le_zero.mp hlen)
    exact ⟨hnd, by simp [drainFuel, hres, alookup], by simpa [drainFuel] using hkeys,
      by simpa [drainFuel] using hbelow, by simpa [drainFuel] using hout⟩
  | succ fuel ih =>
    intro s hlen hnd hkeys hbelow hout
    rcases h : alookup s.results s.nextID with _ | item
    · exact ⟨by simpa [drainFuel, h] using hnd, by simp [drainFuel, h],
        by simpa [drainFuel, h] using hkeys,
        by simpa [drainFuel, h] using hbelow,
        by simpa [drainFuel, h] using hout⟩
    · have hdone : alookup done s.nextID = some item := ((hkeys _ _).mp h).1
      have hstep : drainFuel (fuel + 1) s =
          drainFuel fuel
            ⟨aerase s.results s.nextID, s.nextID + 1, s.output ++ [item]⟩ := by
        simp [drainFuel, h]
      rw [hstep]
      refine ih _ ?_ ?_ ?_ ?_ ?_
      · show (aerase s.results s.nextID).length ≤ fuel
        have := length_aerase_lt s.results s.nextID item h
        omega
      · show ((aerase s.results s.nextID).map Prod.fst).Nodup
        exact hnd.sublist ((aerase_sublist s.results s.nextID).map Prod.fst)
      · show ∀ k v, alookup (aerase s.results s.nextID) k = some v ↔
          (alookup done k = some v ∧ s.nextID + 1 ≤ k)
        intro k v
        by_cases hk : k = s.nextID
        · subst hk
          rw [alookup_aerase_self s.results s.nextID hnd]
          constructor
          · intro hcontra
            exact Option.noConfusion hcontra
          · rintro ⟨-, hcontra⟩
            omega
        · rw [alookup_aerase_ne s.results s.nextID k hk, hkeys k v]
          constructor
          · rintro ⟨h1, h2⟩
            refine ⟨h1, ?_⟩
            omega
          · rintro ⟨h1, h2⟩
            refine ⟨h1, ?_⟩
            omega
      · show ∀ i, i < s.nextID + 1 → (alookup done i).isSome
        intro i hi
        by_cases hi2 : i = s.nextID
        · simp [hi2, hdone]
        · exact hbelow i (by omega)
      · show s.output ++ [item] =
          (List.range (s.nextID + 1)).filterMap (fun i => alookup done i)
        rw [List.range_succ, List.filterMap_append, ← hout]
        simp [hdone]

lemma push_inv {T : Type} (done : List (Nat × T)) (s : QState T)
    (i : Nat) (x : T) (hinv : QInv done s)
    (hfresh : alookup done i = none) :
    QInv (done ++ [(i, x)]) (qpush s i x) := by
  have hge : s.nextID ≤ i := by
    by_contra hlt
    have := hinv.below i (by omega)
    rw [hfresh] at this
    simp at this
  have hmemi : i ∉ s.results.map Prod.fst := by
    intro hmem
    rcases Option.isSome_iff_exists.mp
      ((alookup_isSome_iff_mem s.results i).mpr hmem) with ⟨v, hv⟩
    have := ((hinv.keys i v).mp hv).1
    rw [hfresh] at this
    exact Option.noConfusion this
  have hdone' : ∀ k, k ≠ i →
      alookup (done ++ [(i, x)]) k = alookup done k := by
    intro k hk
    rw [alookup_append]
    have hne : ¬ i = k := fun hh => hk hh.symm
    rcases alookup done k with _ | v
    · simp [alookup, hne]
    · rfl
  have hdonei : alookup (done ++ [(i, x)]) i = some x := by
    rw [alookup_append, hfresh]
    simp [alookup]
  have hnd' : (((i, x) :: s.results).map Prod.fst).Nodup := by
    rw [List.map_cons]
    exact List.nodup_cons.mpr ⟨hmemi, hinv.nodup⟩
  have hkeys' : ∀ k v, alookup ((i, x) :: s.results) k = some v ↔
      (alookup (done ++ [(i, x)]) k = some v ∧ s.nextID ≤ k) := by
    intro k v
    by_cases hk : k = i
    · rw [hk]
      rw [show alookup ((i, x) :: s.results) i = some x by simp [alookup]]
      rw [hdonei]
      constructor
      · intro h
        exact ⟨h, hge⟩
      · exact fun h => h.1
    · have hne : ¬ i = k := fun hh => hk hh.symm
      rw [show alookup ((i, x) :: s.results) k = alookup s.results k by
        simp [alookup, hne]]
      rw [hdone' k hk]
      exact hinv.keys k v
  have hbelow' : ∀ j, j < s.nextID → (alookup (done ++ [(i, x)]) j).isSome := by
    intro j hj
    by_cases hji : j = i
    · simp [hji, hdonei]
    · rw [hdone' j hji]
      exact hinv.below j hj
  have hout' : s.output =
      (List.range s.nextID).filterMap (fun j => alookup (done ++ [(i, x)]) j) := by
    rw [hinv.out]
    apply List.filterMap_congr
    intro j hj
    have hji : j ≠ i := by
      have := List.mem_range.mp hj
      omega
    rw [hdone' j hji]
  by_cases hidx : i = s.nextID
  · rw [qpush, if_pos hidx]
    exact drain_inv (done ++ [(i, x)]) _ _ (Nat.le_refl _) hnd' hkeys' hbelow' hout'
  · rw [qpush, if_neg hidx]
    refine ⟨hnd', ?_, hkeys', hbelow', hout'⟩
    show alookup ((i, x) :: s.results) s.nextID = none
    simpa [alookup, hidx] using hinv.atRest

lemma runPushes_inv {T : Type} :
    ∀ (ps done : List (Nat × T)) (s : QState T),
    QInv done s →
    (∀ p ∈ ps, alookup done p.1 = none) →
    (ps.map Prod.fst).Nodup →
    QInv (done ++ ps) (runPushes s ps) := by
  intro ps
  induction ps with
  | nil =>
    intro done s hinv _ _
    simpa [runPushes] using hinv
  | cons p rest ih =>
    intro done s hinv hfresh hnd
    obtain ⟨i, x⟩ := p
    simp only [List.map_cons, List.nodup_cons] at hnd
    have h1 : QInv (done ++ [(i, x)]) (qpush s i x) :=
      push_inv done s i x hinv (hfresh (i, x) (by simp))
    have h2 : ∀ p ∈ rest, alookup (done ++ [(i, x)]) p.1 = none := by
      intro p hp
      rw [alookup_append, hfresh p (by simp [hp])]
      have hne : i ≠ p.1 := by
        intro h
        exact hnd.1 (h ▸ List.mem_map_of_mem Prod.fst hp)
      simp [alookup, hne]
    have := ih (done ++ [(i, x)]) (qpush s i x) h1 h2 hnd.2
    simpa [runPushes] using this

/-- C2. Starting from `next_seq = 0`, for any sequence of `Push(idx, item)`
calls whose indices are a permutation of `0, …, n-1`, the items forwarded to
the completion channel are exactly the `n` pushed items in strictly
increasing index order: the output equals, for `i = 0, …, n-1` in order, the
item pushed under index `i`. -/
theorem queue_order_preserving {T : Type} (n : Nat) (ps : List (Nat × T))
    (hperm : (ps.map Prod.fst).Perm (List.range n)) :
    (runPushes (qinit T) ps).output
      = (List.range n).filterMap (fun i => alookup ps i) := by
  have hnd : (ps.map Prod.fst).Nodup := hperm.nodup_iff.mpr (List.nodup_range n)
  have hinit : QInv ([] : List (Nat × T)) (qinit T) :=
    ⟨List.nodup_nil, rfl, by simp [qinit, alookup], by simp [qinit],
      by simp [qinit]⟩
  have hinv : QInv ([] ++ ps) (runPushes (qinit T) ps) :=
    runPushes_inv ps [] (qinit T) hinit (by simp [alookup]) hnd
  rw [List.nil_append] at hinv
  have hmem_iff : ∀ k, (alookup ps k).isSome ↔ k < n := by
    intro k
    rw [alookup_isSome_iff_mem, hperm.mem_iff, List.mem_range]
  have hn : (runPushes (qinit T) ps).nextID = n := by
    by_contra hne
    rcases Nat.lt_or_ge (runPushes (qinit T) ps).nextID n with hlt | hge
    · rcases Option.isSome_iff_exists.mp ((hmem_iff _).mpr hlt) with ⟨v, hv⟩
      have := (hinv.keys _ v).mpr ⟨hv, Nat.le_refl _⟩
      rw [hinv.atRest] at this
      exact Option.noConfusion this
    · have hgt : n < (runPushes (qinit T) ps).nextID := by omega
      have := (hmem_iff n).mp (hinv.below n hgt)
      omega
  rw [hinv.out, hn]

/-- Witness for C2: three pushes arriving out of order (1, 0, 2) are
forwarded as items for indices 0, 1, 2. -/
theorem queue_order_preserving_witness :
    (([(1, "b"), (0, "a"), (2, "c")] : List (Nat × String)).map
      Prod.fst).Perm (List.range 3) ∧
    (runPushes (qinit String) [(1, "b"), (0, "a"), (2, "c")]).output
      = ["a", "b", "c"] := by
  refine ⟨by decide, ?_⟩
  rw [queue_order_preserving 3 [(1, "b"), (0, "a"), (2, "c")] (by decide)]
  rfl

/-! ## View configuration (`internal/view.go`, `ViewConfig`) -/

/-- `ViewConfig`. Go `int` fields are `Int`; the `float64` field
`MinMatchedRatio` is modelled as `ℚ`; `StartCharPos` is the byte string,
modelled as a character list. -/
structure ViewConfig where
  minMatchChars : Int
  minMatchWordChars : Int
  minMatchedRatio : ℚ
  startPos : Int
  startCharPos : List Char
  sourceColumnWidth : Int
  skipPrintArgumentExpr : Bool
  projectFilter : List String
  deriving Repr, DecidableEq

/-- Go `strconv.Atoi` restricted to what `ViewConfig` feeds it: an optional
sign followed by decimal digits, rejecting empty input, junk characters and
64-bit overflow (Go returns an error in those cases). -/
def goAtoi (s : List Char) : Option Int :=
  let (sign, digits) :=
    match s with
    | '+' :: rest => ((1 : Int), rest)
    | '-' :: rest => ((-1 : Int), rest)
    | _ => ((1 : Int), s)
  if digits = [] ∨ ¬ digits.all (fun c => c.isDigit) then none
  else
    let n : Nat := digits.foldl (fun acc c => acc * 10 + (c.toNat - '0'.toNat)) 0
    if (n : Int) * sign < -9223372036854775808 ∨
        9223372036854775807 < (n : Int) * sign then none
    else some ((n : Int) * sign)

/-- `ViewConfig.Validate`. -/
def validateConfig (vc : ViewConfig) : Bool :=
  if vc.minMatchChars < 0 then false
  else if vc.startPos < 0 then false
  else if vc.sourceColumnWidth < 0 then false
  else if 0 < vc.startCharPos.length ∧ 1 < vc.startPos then false
  else if 0 < vc.startCharPos.length then
    if vc.startCharPos.length < 2 then false
    else
      match goAtoi (vc.startCharPos.drop 1) with
      | none => false
      | some idx => if idx < 1 then false else true
  else true

/-- `ViewConfig.MustGetStartCharPos`: the leading character and the parsed
position index. (On a validated config the `Atoi` never fails; the model
returns `0` for the panic path.) -/
def mustGetStartCharPos (vc : ViewConfig) : Char × Int :=
  (vc.startCharPos.headD ' ', (goAtoi (vc.startCharPos.drop 1)).getD 0)

/-! ## Prefix strip of `Viewer.ProcessLine` (`internal/view.go:254-271`) -/

/-- Go `strings.IndexByte` over the modelled byte string: index of the first
occurrence, `-1` if absent. -/
def goIndexByte (l : List Char) (c : Char) : Int :=
  match l.findIdx? (fun b => b = c) with
  | some i => (i : Int)
  | none => -1

/-- The `start_char_pos` scan loop of `ProcessLine`: advance past the
`cnt`-th occurrence of `char`; if fewer occurrences exist, set
`startPos = len(line) - 1` (which is `-1` on an empty line) and stop.
`sp` stays a valid suffix start while the loop runs. -/
def scanCharLoop (line : List Char) (char : Char) : Nat → Nat → Int
  | 0, sp => (sp : Int)
  | cnt + 1, sp =>
    match (line.drop sp).findIdx? (fun b => b = char) with
    | none => (line.length : Int) - 1
    | some np => scanCharLoop line char cnt (sp + np + 1)

/-- The byte offset `startPos` computed by `ProcessLine` before splitting
the line into prefix and body. -/
def computeStartPos (vc : ViewConfig) (line : List Char) : Int :=
  if 1 < vc.startPos then vc.startPos - 1
  else if 0 < vc.startCharPos.length then
    let (char, cnt) := mustGetStartCharPos vc
    scanCharLoop line char cnt.toNat 0
  else 0

/-- The split `prefix = line[:min(startPos, len(line))]`,
`body = line[min(startPos, len(line)):]`. Go slicing panics when the bound
is negative; the model returns `none` for that panic. -/
def splitLine (line : List Char) (sp : Int) : Option (List Char × List Char) :=
  let m := min sp (line.length : Int)
  if m < 0 then none
  else some (line.take m.toNat, line.drop m.toNat)

/-- C9 (code_bug evidence). The configuration `start_char_pos = " 2"` passes
validation, yet on the empty input line the computed offset is
`len("") - 1 = -1` and the Go slice expression `line[min(-1, 0):]` panics:
the prefix-strip step of `ProcessLine` is not total. -/
theorem processLine_prefix_strip_panics_on_empty_line :
    validateConfig
      ⟨4, 3, (3 : ℚ)/10, 1, [' ', '2'], 40, false, []⟩ = true ∧
    computeStartPos
      ⟨4, 3, (3 : ℚ)/10, 1, [' ', '2'], 40, false, []⟩ [] = -1 ∧
    splitLine []
      (computeStartPos
        ⟨4, 3, (3 : ℚ)/10, 1, [' ', '2'], 40, false, []⟩ []) = none := by
  refine ⟨by decide, by decide, by decide⟩

/-! ## Confirm-and-score candidate selection (`internal/view.go:311-362`)

Each surviving `(id, from)` key whose confirm regex matches the body yields
a scored candidate.  The scores (`totalMatched`, `totalMatchedLiterals`,
`totalMatchedWordLiterals`) are computed from the PCRE2 matcher, which is an
external native library; candidates therefore enter the model as data.  The
iteration order of the Go map `matches` is explicit as the list order. -/

/-- A confirmed candidate as scored by `ProcessLine`: its map key
`(id, from)` plus the three scalars of step 3. -/
structure Cand where
  id : Nat
  start : Nat
  wordLits : Int
  lits : Int
  total : Int
  deriving Repr, DecidableEq

/-- The running best of the selection loop: `bestMatchedWordLiterals`,
`bestMatchedLiterals`, `bestMatchedTotal` and the best key (the model keeps
the whole candidate; the source keeps the key and re-reads the map). -/
structure SelSt where
  bw : Int
  bl : Int
  bt : Int
  bkey : Option Cand
  deriving Repr, DecidableEq

/-- The update condition of the selection loop, verbatim from the source:
strictly more word literals, or equal word literals and strictly more
literals, or equal both and strictly larger total. -/
def selBeats (c : Cand) (st : SelSt) : Bool :=
  (st.bw < c.wordLits) ||
  (c.wordLits = st.bw && st.bl < c.lits) ||
  (c.wordLits = st.bw && c.lits = st.bl && st.bt < c.total)

/-- One iteration of the selection loop. -/
def selStep (st : SelSt) (c : Cand) : SelSt :=
  if selBeats c st then ⟨c.wordLits, c.lits, c.total, some c⟩ else st

/-- The full selection: fold the loop over the candidates in map iteration
order starting from zero scores, then apply the `bestMatchedTotal == 0`
guard (no candidate wins if the final total is zero). -/
def selectBest (cands : List Cand) : Option Cand :=
  let st := cands.foldl selStep ⟨0, 0, 0, none⟩
  if st.bt = 0 then none else st.bkey

/-- The score triple of a candidate. -/
def triple (c : Cand) : Int × Int × Int := (c.wordLits, c.lits, c.total)

/-- Strict lexicographic order on score triples. -/
def lexLt (a b : Int × Int × Int) : Prop :=
  a.1 < b.1 ∨ (a.1 = b.1 ∧ (a.2.1 < b.2.1 ∨ (a.2.1 = b.2.1 ∧ a.2.2 < b.2.2)))

/-- Reflexive lexicographic order on score triples. -/
def lexLe (a b : Int × Int × Int) : Prop := lexLt a b ∨ a = b

lemma lexLt_trans {a b c : Int × Int × Int}
    (h1 : lexLt a b) (h2 : lexLt b c) : lexLt a c := by
  obtain ⟨a1, a2, a3⟩ := a
  obtain ⟨b1, b2, b3⟩ := b
  obtain ⟨c1, c2, c3⟩ := c
  simp only [lexLt] at h1 h2 ⊢
  rcases h1 with h1 | ⟨e1, h1⟩ <;> rcases h2 with h2 | ⟨e2, h2⟩
  · exact Or.inl (by omega)
  · exact Or.inl (by omega)
  · exact Or.inl (by omega)
  · refine Or.inr ⟨by omega, ?_⟩
    rcases h1 with h1 | ⟨f1, h1⟩ <;> rcases h2 with h2 | ⟨f2, h2⟩
    · exact Or.inl (by omega)
    · exact Or.inl (by omega)
    · exact Or.inl (by omega)
    · exact Or.inr ⟨by omega, by omega⟩

lemma lexLe_of_not_lt {a b : Int × Int × Int} (h : ¬ lexLt a b) : lexLe b a := by
  obtain ⟨a1, a2, a3⟩ := a
  obtain ⟨b1, b2, b3⟩ := b
  simp only [lexLt, not_or, not_and, not_lt] at h
  by_cases h1 : b1 < a1
  · exact Or.inl (Or.inl h1)
  · have e1 : a1 = b1 := by omega
    subst e1
    have h2 := h.2 rfl
    by_cases h3 : b2 < a2
    · exact Or.inl (Or.inr ⟨rfl, Or.inl h3⟩)
    · have e2 : a2 = b2 := by omega
      subst e2
      have h4 := h2.2 rfl
      by_cases h5 : b3 < a3
      · exact Or.inl (Or.inr ⟨rfl, Or.inr ⟨rfl, h5⟩⟩)
      · have e3 : a3 = b3 := by omega
        subst e3
        exact Or.inr rfl

/-- The state triple of a `SelSt`. -/
def stTriple (st : SelSt) : Int × Int × Int := (st.bw, st.bl, st.bt)

lemma selBeats_iff_lexLt (c : Cand) (st : SelSt) :
    selBeats c st = true ↔ lexLt (stTriple st) (triple c) := by
  simp only [selBeats, lexLt, stTriple, triple, Bool.or_eq_true,
    Bool.and_eq_true, decide_eq_true_eq]
  constructor
  · rintro ((h | ⟨h1, h2⟩) | ⟨⟨h1, h2⟩, h3⟩)
    · exact Or.inl h
    · exact Or.inr ⟨h1.symm, Or.inl h2⟩
    · exact Or.inr ⟨h1.symm, Or.inr ⟨h2.symm, h3⟩⟩
  · rintro (h | ⟨h1, h2 | ⟨h2, h3⟩⟩)
    · exact Or.inl (Or.inl h)
    · exact Or.inl (Or.inr ⟨h1.symm, h2⟩)
    · exact Or.inr ⟨⟨h1.symm, h2.symm⟩, h3⟩

lemma lexLe_trans {a b c : Int × Int × Int}
    (h1 : lexLe a b) (h2 : lexLe b c) : lexLe a c := by
  rcases h1 with h1 | h1
  · rcases h2 with h2 | h2
    · exact Or.inl (lexLt_trans h1 h2)
    · exact Or.inl (h2 ▸ h1)
  · rw [h1]
    exact h2

lemma selStep_mono (st : SelSt) (c : Cand) :
    lexLe (stTriple st) (stTriple (selStep st c)) := by
  rcases hbeat : selBeats c st with _ | _
  · rw [show selStep st c = st by simp [selStep, hbeat]]
    exact Or.inr rfl
  · have h := (selBeats_iff_lexLt c st).mp hbeat
    rw [show stTriple (selStep st c) = triple c by
      simp [selStep, hbeat, stTriple, triple]]
    exact Or.inl h

/-- The state triple never decreases along the selection fold. -/
lemma selFold_mono : ∀ (ps : List Cand) (st : SelSt),
    lexLe (stTriple st) (stTriple (ps.foldl selStep st)) := by
  intro ps
  induction ps with
  | nil =>
    intro st
    exact Or.inr rfl
  | cons a rest ih =>
    intro st
    exact lexLe_trans (selStep_mono st a) (by simpa using ih (selStep st a))

/-- Every candidate's triple is bounded by the final state triple. -/
lemma selFold_max : ∀ (ps : List Cand) (st : SelSt) (x : Cand), x ∈ ps →
    lexLe (triple x) (stTriple (ps.foldl selStep st)) := by
  intro ps
  induction ps with
  | nil =>
    intro st x hx
    exact absurd hx (List.not_mem_nil x)
  | cons a rest ih =>
    intro st x hx
    rw [List.foldl_cons]
    rcases List.mem_cons.mp hx with hx | hx
    · subst hx
      have hle : lexLe (triple x) (stTriple (selStep st x)) := by
        rcases hbeat : selBeats x st with _ | _
        · have hnot : ¬ lexLt (stTriple st) (triple x) := by
            rw [← selBeats_iff_lexLt]
            simp [hbeat]
          rw [show selStep st x = st by simp [selStep, hbeat]]
          exact lexLe_of_not_lt hnot
        · rw [show stTriple (selStep st x) = triple x by
            simp [selStep, hbeat, stTriple, triple]]
          exact Or.inr rfl
      exact lexLe_trans hle (selFold_mono rest (selStep st x))
    · exact ih (selStep st a) x hx

lemma lexLt_irrefl (a : Int × Int × Int) : ¬ lexLt a a := by
  obtain ⟨a1, a2, a3⟩ := a
  simp only [lexLt]
  omega

lemma lexLe_lt_trans {a b c : Int × Int × Int}
    (h1 : lexLe a b) (h2 : lexLt b c) : lexLt a c := by
  rcases h1 with h1 | h1
  · exact lexLt_trans h1 h2
  · exact h1 ▸ h2

instance (a b : Int × Int × Int) : Decidable (lexLt a b) := by
  unfold lexLt
  infer_instance

instance (a b : Int × Int × Int) : Decidable (lexLe a b) := by
  unfold lexLe
  infer_instance

/-- Where the final best key comes from: either no update ever fired (the
state is unchanged and no candidate strictly exceeds it), or the final key
is the first candidate attaining the final state triple, which strictly
exceeds the initial triple and the triple of every earlier candidate. -/
lemma selFold_origin : ∀ (ps : List Cand) (st : SelSt),
    (ps.foldl selStep st = st ∧
      ∀ x ∈ ps, lexLe (triple x) (stTriple st)) ∨
    (∃ pre c post, ps = pre ++ c :: post ∧
      (ps.foldl selStep st).bkey = some c ∧
      stTriple (ps.foldl selStep st) = triple c ∧
      lexLt (stTriple st) (triple c) ∧
      ∀ x ∈ pre, lexLt (triple x) (triple c)) := by
  intro ps
  induction ps with
  | nil =>
    intro st
    exact Or.inl ⟨rfl, by simp⟩
  | cons a rest ih =>
    intro st
    rcases hbeat : selBeats a st with _ | _
    · -- a does not beat the current best
      have hstep : selStep st a = st := by simp [selStep, hbeat]
      have hfold : (a :: rest).foldl selStep st = rest.foldl selStep st := by
        rw [List.foldl_cons, hstep]
      have hnotlt : ¬ lexLt (stTriple st) (triple a) := by
        rw [← selBeats_iff_lexLt]
        simp [hbeat]
      rcases ih st with ⟨heq, hall⟩ | ⟨pre, c, post, hps, hkey, htrip, hlt, hpre⟩
      · refine Or.inl ⟨by rw [hfold, heq], ?_⟩
        intro x hx
        rcases List.mem_cons.mp hx with hx | hx
        · exact hx ▸ lexLe_of_not_lt hnotlt
        · exact hall x hx
      · refine Or.inr ⟨a :: pre, c, post, by rw [hps, List.cons_append], ?_, ?_, ?_, ?_⟩
        · rw [hfold]
          exact hkey
        · rw [hfold]
          exact htrip
        · exact hlt
        · intro x hx
          rcases List.mem_cons.mp hx with hx | hx
          · exact hx ▸ lexLe_lt_trans (lexLe_of_not_lt hnotlt) hlt
          · exact hpre x hx
    · -- a becomes the new best
      have hlt_a : lexLt (stTriple st) (triple a) := (selBeats_iff_lexLt a st).mp hbeat
      have hstep : selStep st a = ⟨a.wordLits, a.lits, a.total, some a⟩ := by
        simp [selStep, hbeat]
      have hsttrip : stTriple (selStep st a) = triple a := by
        rw [hstep]
        rfl
      have hfold : (a :: rest).foldl selStep st = rest.foldl selStep (selStep st a) := by
        rw [List.foldl_cons]
      rcases ih (selStep st a) with ⟨heq, hall⟩ | ⟨pre, c, post, hps, hkey, htrip, hlt, hpre⟩
      · refine Or.inr ⟨[], a, rest, by simp, ?_, ?_, hlt_a, by simp⟩
        · rw [hfold, heq, hstep]
        · rw [hfold, heq, hsttrip]
      · refine Or.inr ⟨a :: pre, c, post, by rw [hps, List.cons_append], ?_, ?_, ?_, ?_⟩
        · rw [hfold]
          exact hkey
        · rw [hfold]
          exact htrip
        · exact lexLt_trans hlt_a (hsttrip ▸ hlt)
        · intro x hx
          rcases List.mem_cons.mp hx with hx | hx
          · exact hx ▸ (hsttrip ▸ hlt)
          · exact hpre x hx

/-- Characterization of a successful selection, shared by the theorems
below: the winner is the first candidate attaining the maximal triple. -/
lemma selectBest_some (ps : List Cand) (c : Cand)
    (h : selectBest ps = some c) :
    (∃ pre post, ps = pre ++ c :: post ∧
      ∀ x ∈ pre, lexLt (triple x) (triple c)) ∧
    (∀ x ∈ ps, lexLe (triple x) (triple c)) ∧
    lexLt (0, 0, 0) (triple c) := by
  have hkey : (ps.foldl selStep ⟨0, 0, 0, none⟩).bkey = some c := by
    unfold selectBest at h
    by_cases hz : (ps.foldl selStep ⟨0, 0, 0, none⟩).bt = 0
    · rw [if_pos hz] at h
      exact Option.noConfusion h
    · rwa [if_neg hz] at h
  rcases selFold_origin ps ⟨0, 0, 0, none⟩ with ⟨heq, _⟩ |
    ⟨pre, c', post, hps, hkey', htrip, hlt, hpre⟩
  · rw [heq] at hkey
    exact Option.noConfusion hkey
  · rw [hkey'] at hkey
    have hc : c' = c := Option.some.inj hkey
    subst hc
    refine ⟨⟨pre, post, hps, hpre⟩, ?_, ?_⟩
    · intro x hx
      have := selFold_max ps ⟨0, 0, 0, none⟩ x hx
      rwa [htrip] at this
    · exact hlt

/-- C5 (amended). `selectBest` is a function of the engine state, the line
and the iteration order of the candidate map: given the same candidate
sequence it always returns the same winner, and that winner is the *first*
candidate in iteration order attaining the lexicographically maximal score
triple (which strictly exceeds `(0,0,0)`).  Ties between candidates with
identical triples are thus resolved by map iteration order — not by
`(id, from)` — so they may resolve differently across runs. -/
theorem selection_first_max (ps : List Cand) (c : Cand)
    (h : selectBest ps = some c) :
    (∃ pre post, ps = pre ++ c :: post ∧
      ∀ x ∈ pre, lexLt (triple x) (triple c)) ∧
    (∀ x ∈ ps, lexLe (triple x) (triple c)) ∧
    lexLt (0, 0, 0) (triple c) :=
  selectBest_some ps c h

/-- Witness for C5 (amended): the maximal candidate is selected and bounds
every candidate's triple. -/
theorem selection_first_max_witness :
    selectBest [⟨1, 0, 2, 2, 2⟩, ⟨2, 0, 9, 9, 9⟩] = some ⟨2, 0, 9, 9, 9⟩ ∧
    ∀ x ∈ [Cand.mk 1 0 2 2 2, Cand.mk 2 0 9 9 9],
      lexLe (triple x) (triple ⟨2, 0, 9, 9, 9⟩) := by
  have h : selectBest [⟨1, 0, 2, 2, 2⟩, ⟨2, 0, 9, 9, 9⟩]
      = some ⟨2, 0, 9, 9, 9⟩ := by decide
  exact ⟨h, (selection_first_max _ _ h).2.1⟩

/-- C5 counterexample. Two candidates tie on all three scores; the selection
keeps whichever the map iteration enumerates first, so the winner depends on
iteration order and `ProcessLine` is not deterministic across runs (Go map
iteration order varies).  No `(id, from)` tie-break exists. -/
theorem selection_tie_depends_on_iteration_order :
    selectBest [⟨1, 0, 3, 3, 5⟩, ⟨2, 7, 3, 3, 5⟩] = some ⟨1, 0, 3, 3, 5⟩ ∧
    selectBest [⟨2, 7, 3, 3, 5⟩, ⟨1, 0, 3, 3, 5⟩] = some ⟨2, 7, 3, 3, 5⟩ ∧
    (⟨1, 0, 3, 3, 5⟩ : Cand) ≠ ⟨2, 7, 3, 3, 5⟩ := by
  refine ⟨by decide, by decide, by decide⟩

/-- C4 (amended): with a *strict* lexicographic inequality the claim holds —
a candidate whose triple is strictly below another present candidate's
triple is never selected. -/
theorem selection_monotone_strict (ps : List Cand) (A B : Cand)
    (hA : A ∈ ps) (hlt : lexLt (triple B) (triple A)) :
    selectBest ps ≠ some B := by
  intro hsel
  have hmax := (selectBest_some ps B hsel).2.1 A hA
  exact lexLt_irrefl (triple A) (lexLe_lt_trans hmax hlt)

/-- Witness for C4 (amended). -/
theorem selection_monotone_strict_witness :
    (⟨1, 0, 5, 5, 5⟩ : Cand) ∈ [Cand.mk 1 0 5 5 5, Cand.mk 2 0 3 3 3] ∧
    lexLt (triple ⟨2, 0, 3, 3, 3⟩) (triple ⟨1, 0, 5, 5, 5⟩) ∧
    selectBest [⟨1, 0, 5, 5, 5⟩, ⟨2, 0, 3, 3, 3⟩] ≠ some ⟨2, 0, 3, 3, 3⟩ := by
  refine ⟨by decide, by decide, ?_⟩
  exact selection_monotone_strict [⟨1, 0, 5, 5, 5⟩, ⟨2, 0, 3, 3, 3⟩]
    ⟨1, 0, 5, 5, 5⟩ ⟨2, 0, 3, 3, 3⟩ (by decide) (by decide)

/-- C4 counterexample. With the claim's non-strict `≥`: candidates A and B
have equal triples (so A's triple is lexicographically ≥ B's), yet B — being
enumerated first — is selected over A. -/
theorem selection_ge_counterexample :
    lexLe (triple ⟨2, 7, 4, 4, 6⟩) (triple ⟨1, 0, 4, 4, 6⟩) ∧
    (⟨1, 0, 4, 4, 6⟩ : Cand) ∈ [Cand.mk 2 7 4 4 6, Cand.mk 1 0 4 4 6] ∧
    selectBest [⟨2, 7, 4, 4, 6⟩, ⟨1, 0, 4, 4, 6⟩] = some ⟨2, 7, 4, 4, 6⟩ ∧
    (⟨2, 7, 4, 4, 6⟩ : Cand) ≠ ⟨1, 0, 4, 4, 6⟩ := by
  refine ⟨by decide, by decide, by decide, by decide⟩

/-! ## Match threshold (`internal/view.go:363-410`)

`matchResult` models the outcome of steps 4-6 of `ProcessLine` on the
scored candidates: `some best` means the line is rendered as a match (the
reference column is populated with file:line and, unless
`skip_print_argument_expr` is set, argument annotations are interleaved);
`none` means the body passes through unannotated. -/

/-- The winner qualifies only if the three thresholds of the source hold:
`bestMatchedLiterals >= MinMatchChars`,
`bestMatchedWordLiterals >= MinMatchWordChars` and
`float64(bestMatchedTotal) >= MinMatchedRatio * float64(len(lineToMatch))`. -/
def matchResult (vc : ViewConfig) (bodyLen : Nat) (cands : List Cand) :
    Option Cand :=
  match selectBest cands with
  | none => none
  | some best =>
    if vc.minMatchChars ≤ best.lits ∧ vc.minMatchWordChars ≤ best.wordLits ∧
        vc.minMatchedRatio * (bodyLen : ℚ) ≤ (best.total : ℚ) then some best
    else none

/-- C3. Once confirm-and-score has selected a winning candidate, the line is
rendered as a match exactly when `total_literals ≥ min_match_chars`,
`total_word_literals ≥ min_match_word_chars` and
`total ≥ min_matched_ratio · len(body)` all hold; when any of the three
fails, the body passes through with no match. -/
theorem match_threshold_iff (vc : ViewConfig) (bodyLen : Nat)
    (cands : List Cand) (best : Cand)
    (h : selectBest cands = some best) :
    (matchResult vc bodyLen cands).isSome = true ↔
      (vc.minMatchChars ≤ best.lits ∧ vc.minMatchWordChars ≤ best.wordLits ∧
        vc.minMatchedRatio * (bodyLen : ℚ) ≤ (best.total : ℚ)) := by
  unfold matchResult
  rw [h]
  by_cases hq : vc.minMatchChars ≤ best.lits ∧
      vc.minMatchWordChars ≤ best.wordLits ∧
      vc.minMatchedRatio * (bodyLen : ℚ) ≤ (best.total : ℚ)
  · simp [hq]
  · simp [hq]

/-- Witness for C3: scenario 2 of the spec (`fd=%d bytes=%d` on
`fd=7 bytes=1024`): scores (7, 10, 15) pass the default thresholds
(4, 3, 0.3) on a 15-byte body, so the line is a match. -/
theorem match_threshold_iff_witness :
    selectBest [⟨1, 0, 7, 10, 15⟩] = some ⟨1, 0, 7, 10, 15⟩ ∧
    (matchResult ⟨4, 3, (3 : ℚ)/10, 1, [], 40, false, []⟩ 15
      [⟨1, 0, 7, 10, 15⟩]).isSome = true := by
  have h : selectBest [⟨1, 0, 7, 10, 15⟩] = some ⟨1, 0, 7, 10, 15⟩ := by decide
  refine ⟨h, ?_⟩
  rw [match_threshold_iff ⟨4, 3, (3 : ℚ)/10, 1, [], 40, false, []⟩ 15
    [⟨1, 0, 7, 10, 15⟩] ⟨1, 0, 7, 10, 15⟩ h]
  refine ⟨by norm_num, by norm_num, by norm_num⟩

/-! ## Prefilter scan collection (`internal/view.go:286-306`)

The hyperscan `MatchHandler` receives `(id, from, to)` reports from the
native scanner (an oracle: its reports are a list parameter, in callback
order) and collects them into the Go map `matches` keyed by `(id, from)`. -/

/-- `LogCallRef`. -/
structure LogCallRef where
  project : String
  callIndex : Nat
  deriving Repr, DecidableEq

/-- One hyperscan callback invocation `(id, from, to)` (all `uint64`). -/
structure ScanReport where
  id : Nat
  rfrom : Nat
  rto : Nat
  deriving Repr, DecidableEq

/-- The `Match` record stored in the `matches` map. -/
structure ScanMatch where
  lcRef : LogCallRef
  mfrom : Nat
  mto : Nat
  deriving Repr, DecidableEq

/-- Go map insert-or-overwrite. -/
def mupsert {κ T : Type} [DecidableEq κ] :
    List (κ × T) → κ → T → List (κ × T)
  | [], k, v => [(k, v)]
  | (k', v') :: rest, k, v =>
    if k' = k then (k, v) :: rest else (k', v') :: mupsert rest k v

lemma alookup_mupsert_self {κ T : Type} [DecidableEq κ]
    (m : List (κ × T)) (k : κ) (v : T) :
    alookup (mupsert m k v) k = some v := by
  induction m with
  | nil => simp [mupsert, alookup]
  | cons p rest ih =>
    obtain ⟨k', v'⟩ := p
    by_cases h : k' = k <;> simp [mupsert, alookup, h, ih]

lemma alookup_mupsert_ne {κ T : Type} [DecidableEq κ]
    (m : List (κ × T)) (k q : κ) (v : T) (h : q ≠ k) :
    alookup (mupsert m k v) q = alookup m q := by
  induction m with
  | nil =>
    have hne : ¬ k = q := fun hh => h hh.symm
    simp [mupsert, alookup, hne]
  | cons p rest ih =>
    obtain ⟨k', v'⟩ := p
    by_cases hk : k' = k
    · have hne : ¬ k = q := fun hh => h hh.symm
      simp [mupsert, alookup, hk, hne]
    · by_cases hk2 : k' = q <;> simp [mupsert, alookup, hk, hk2, h, ih]

/-- The `uint64(MinMatchedRatio * float64(len(lineToMatch)))` floor: the Go
float-to-uint64 conversion truncates (the ratio is non-negative in any
meaningful configuration). -/
def scanFloor (vc : ViewConfig) (bodyLen : Nat) : Nat :=
  (vc.minMatchedRatio * (bodyLen : ℚ)).floor.toNat

/-- Negation of the early-return test of the match handler: the report
survives both the absolute length floor and the ratio floor. -/
def survives (vc : ViewConfig) (bodyLen : Nat) (r : ScanReport) : Bool :=
  decide (¬ (r.rto - r.rfrom < vc.minMatchChars.toNat ∨
    r.rto - r.rfrom < scanFloor vc bodyLen))

/-- One invocation of the hyperscan match handler: drop a report failing a
length floor; keep an existing entry for `(id, from)` whose `To` exceeds
the report's `to` (`if oldMatch.To > to { return nil }`); otherwise write
`Match{lcRef, from, to}` into the map. -/
def handleReport (refOf : Nat → LogCallRef) (vc : ViewConfig)
    (bodyLen : Nat) (m : List ((Nat × Nat) × ScanMatch)) (r : ScanReport) :
    List ((Nat × Nat) × ScanMatch) :=
  if survives vc bodyLen r then
    match alookup m (r.id, r.rfrom) with
    | some old =>
      if r.rto < old.mto then m
      else mupsert m (r.id, r.rfrom) ⟨refOf r.id, r.rfrom, r.rto⟩
    | none => mupsert m (r.id, r.rfrom) ⟨refOf r.id, r.rfrom, r.rto⟩
  else m

/-- The whole prefilter scan of `ProcessLine`: fold the handler over the
scanner's reports in callback order, starting from the empty map. -/
def collectReports (refOf : Nat → LogCallRef) (vc : ViewConfig)
    (bodyLen : Nat) (reports : List ScanReport) :
    List ((Nat × Nat) × ScanMatch) :=
  reports.foldl (handleReport refOf vc bodyLen) []

/-- Maximum accumulator: fold `max` over a list starting from an optional
initial value. -/
def maxAcc : Option Nat → List Nat → Option Nat
  | acc, [] => acc
  | acc, t :: ts =>
    maxAcc (some (match acc with | none => t | some a => max a t)) ts

lemma maxAcc_some_ne : ∀ (l : List Nat) (a : Nat), maxAcc (some a) l ≠ none := by
  intro l
  induction l with
  | nil =>
    intro a h
    exact Option.noConfusion h
  | cons t ts ih =>
    intro a
    simpa [maxAcc] using ih (max a t)

lemma maxAcc_none_iff : ∀ (l : List Nat), maxAcc none l = none ↔ l = [] := by
  intro l
  cases l with
  | nil => simp [maxAcc]
  | cons t ts =>
    simp only [maxAcc]
    constructor
    · intro h
      exact absurd h (maxAcc_some_ne ts t)
    · intro h
      exact List.noConfusion h

lemma maxAcc_some_spec : ∀ (l : List Nat) (a t : Nat),
    maxAcc (some a) l = some t →
    (t = a ∨ t ∈ l) ∧ a ≤ t ∧ ∀ u ∈ l, u ≤ t := by
  intro l
  induction l with
  | nil =>
    intro a t h
    have ht : a = t := Option.some.inj h
    exact ⟨Or.inl ht.symm, ht.le, by simp⟩
  | cons b l' ih =>
    intro a t h
    have h' : maxAcc (some (max a b)) l' = some t := by simpa [maxAcc] using h
    obtain ⟨hmem, hle, hall⟩ := ih (max a b) t h'
    refine ⟨?_, le_trans (le_max_left a b) hle, ?_⟩
    · rcases hmem with hmem | hmem
      · rcases max_choice a b with hm | hm
        · exact Or.inl (hmem.trans hm)
        · exact Or.inr (by simp [hmem.trans hm])
      · exact Or.inr (by simp [hmem])
    · intro u hu
      rcases List.mem_cons.mp hu with hu | hu
      · exact hu ▸ le_trans (le_max_right a b) hle
      · exact hall u hu

lemma maxAcc_none_spec (l : List Nat) (t : Nat)
    (h : maxAcc none l = some t) : t ∈ l ∧ ∀ u ∈ l, u ≤ t := by
  cases l with
  | nil => exact Option.noConfusion h
  | cons b l' =>
    have h' : maxAcc (some b) l' = some t := by simpa [maxAcc] using h
    obtain ⟨hmem, hle, hall⟩ := maxAcc_some_spec l' b t h'
    refine ⟨?_, ?_⟩
    · rcases hmem with hmem | hmem
      · simp [hmem]
      · simp [hmem]
    · intro u hu
      rcases List.mem_cons.mp hu with hu | hu
      · exact hu ▸ hle
      · exact hall u hu

/-- The retained `To` under a key after folding the handler over a report
list equals the running maximum of the surviving reports' `to` values for
that key, seeded with whatever the map already held. -/
lemma collect_fold_to (refOf : Nat → LogCallRef) (vc : ViewConfig)
    (bodyLen : Nat) :
    ∀ (rs : List ScanReport) (m : List ((Nat × Nat) × ScanMatch))
      (key : Nat × Nat),
    (alookup (rs.foldl (handleReport refOf vc bodyLen) m) key).map
        ScanMatch.mto
      = maxAcc ((alookup m key).map ScanMatch.mto)
          ((rs.filter (fun r => survives vc bodyLen r &&
            decide ((r.id, r.rfrom) = key))).map ScanReport.rto) := by
  intro rs
  induction rs with
  | nil =>
    intro m key
    simp [maxAcc]
  | cons r rs' ih =>
    intro m key
    rw [List.foldl_cons]
    rcases hs : survives vc bodyLen r with _ | _
    · rw [show handleReport refOf vc bodyLen m r = m by
        simp [handleReport, hs]]
      rw [ih m key]
      congr 1
      simp [List.filter_cons, hs]
    · by_cases hkey : (r.id, r.rfrom) = key
      · have hfilter :
            ((r :: rs').filter (fun r => survives vc bodyLen r &&
              decide ((r.id, r.rfrom) = key))).map ScanReport.rto
            = r.rto :: ((rs'.filter (fun r => survives vc bodyLen r &&
              decide ((r.id, r.rfrom) = key))).map ScanReport.rto) := by
          simp [List.filter_cons, hs, hkey]
        rw [hfilter]
        rcases hold : alookup m (r.id, r.rfrom) with _ | old
        · rw [show handleReport refOf vc bodyLen m r
              = mupsert m (r.id, r.rfrom) ⟨refOf r.id, r.rfrom, r.rto⟩ by
            simp [handleReport, hs, hold]]
          rw [ih]
          rw [← hkey, alookup_mupsert_self, hold]
          simp [maxAcc]
        · by_cases hlt : r.rto < old.mto
          · rw [show handleReport refOf vc bodyLen m r = m by
              simp [handleReport, hs, hold, hlt]]
            rw [ih, ← hkey, hold]
            simp only [maxAcc]
            congr 2
            show some old.mto = some (max old.mto r.rto)
            rw [Nat.max_eq_left (Nat.le_of_lt hlt)]
          · rw [show handleReport refOf vc bodyLen m r
                = mupsert m (r.id, r.rfrom) ⟨refOf r.id, r.rfrom, r.rto⟩ by
              simp [handleReport, hs, hold, hlt]]
            rw [ih, ← hkey, alookup_mupsert_self, hold]
            simp only [maxAcc]
            congr 2
            show some r.rto = some (max old.mto r.rto)
            rw [Nat.max_eq_right (Nat.le_of_not_lt hlt)]
      · have hfilter :
            ((r :: rs').filter (fun r => survives vc bodyLen r &&
              decide ((r.id, r.rfrom) = key)))
            = rs'.filter (fun r => survives vc bodyLen r &&
              decide ((r.id, r.rfrom) = key)) := by
          simp [List.filter_cons, hs, hkey]
        rw [hfilter]
        have hsame : alookup (handleReport refOf vc bodyLen m r) key
            = alookup m key := by
          rcases hold : alookup m (r.id, r.rfrom) with _ | old
          · rw [show handleReport refOf vc bodyLen m r
                = mupsert m (r.id, r.rfrom) ⟨refOf r.id, r.rfrom, r.rto⟩ by
              simp [handleReport, hs, hold]]
            exact alookup_mupsert_ne m (r.id, r.rfrom) key _
              (fun hh => hkey hh.symm)
          · by_cases hlt : r.rto < old.mto
            · rw [show handleReport refOf vc bodyLen m r = m by
                simp [handleReport, hs, hold, hlt]]
            · rw [show handleReport refOf vc bodyLen m r
                  = mupsert m (r.id, r.rfrom) ⟨refOf r.id, r.rfrom, r.rto⟩ by
                simp [handleReport, hs, hold, hlt]]
              exact alookup_mupsert_ne m (r.id, r.rfrom) key _
                (fun hh => hkey hh.symm)
        rw [ih, hsame]

/-- C1 (amended). The prefilter collection keys reports by `(id, from)` but
retains, for each key, the *longest* `to` among the surviving reports (the
last of the maximal reports in callback order): an existing entry is kept
only when its `To` strictly exceeds the incoming report's, otherwise it is
overwritten.  If no report for the key survives the length floors, the key
is absent. -/
theorem scan_collect_keeps_longest (refOf : Nat → LogCallRef)
    (vc : ViewConfig) (bodyLen : Nat) (reports : List ScanReport)
    (key : Nat × Nat) :
    (alookup (collectReports refOf vc bodyLen reports) key = none →
      reports.filter (fun r => survives vc bodyLen r &&
        decide ((r.id, r.rfrom) = key)) = []) ∧
    (∀ sm, alookup (collectReports refOf vc bodyLen reports) key = some sm →
      sm.mto ∈ (reports.filter (fun r => survives vc bodyLen r &&
          decide ((r.id, r.rfrom) = key))).map ScanReport.rto ∧
      ∀ u ∈ (reports.filter (fun r => survives vc bodyLen r &&
          decide ((r.id, r.rfrom) = key))).map ScanReport.rto, u ≤ sm.mto) := by
  have hfold := collect_fold_to refOf vc bodyLen reports [] key
  rw [show alookup ([] : List ((Nat × Nat) × ScanMatch)) key = none from rfl]
    at hfold
  constructor
  · intro hnone
    rw [collectReports] at hnone
    rw [hnone] at hfold
    have := (maxAcc_none_iff _).mp hfold.symm
    exact List.map_eq_nil_iff.mp this
  · intro sm hsm
    rw [collectReports] at hsm
    rw [hsm] at hfold
    exact maxAcc_none_spec _ _ hfold.symm

lemma scanFloor_zero (bodyLen : Nat) :
    scanFloor ⟨0, 0, 0, 1, [], 40, false, []⟩ bodyLen = 0 := by
  simp only [scanFloor, zero_mul]
  decide

lemma survives_zero (bodyLen : Nat) (r : ScanReport) :
    survives ⟨0, 0, 0, 1, [], 40, false, []⟩ bodyLen r = true := by
  simp [survives, scanFloor_zero]

/-- Concrete evaluation shared by the C1 witness and counterexample. -/
lemma scanEx_eval :
    alookup (collectReports (fun _ => ⟨"p", 0⟩)
        ⟨0, 0, 0, 1, [], 40, false, []⟩ 20
        [⟨1, 0, 4⟩, ⟨1, 0, 9⟩]) (1, 0) = some ⟨⟨"p", 0⟩, 0, 9⟩ := by
  norm_num [collectReports, List.foldl_cons, List.foldl_nil, handleReport,
    survives_zero, alookup, mupsert]

/-- Witness for C1 (amended): with two surviving reports for key `(1, 0)`
with `to = 4` then `to = 9`, the retained entry's `To` is maximal. -/
theorem scan_collect_keeps_longest_witness :
    alookup (collectReports (fun _ => ⟨"p", 0⟩)
        ⟨0, 0, 0, 1, [], 40, false, []⟩ 20
        [⟨1, 0, 4⟩, ⟨1, 0, 9⟩]) (1, 0) = some ⟨⟨"p", 0⟩, 0, 9⟩ ∧
    (9 : Nat) ∈ (([⟨1, 0, 4⟩, ⟨1, 0, 9⟩] : List ScanReport).filter
      (fun r => survives ⟨0, 0, 0, 1, [], 40, false, []⟩ 20 r &&
        decide ((r.id, r.rfrom) = ((1, 0) : Nat × Nat)))).map ScanReport.rto := by
  have h := scanEx_eval
  refine ⟨h, ?_⟩
  exact ((scan_collect_keeps_longest (fun _ => ⟨"p", 0⟩)
    ⟨0, 0, 0, 1, [], 40, false, []⟩ 20 [⟨1, 0, 4⟩, ⟨1, 0, 9⟩] (1, 0)).2
    ⟨⟨"p", 0⟩, 0, 9⟩ h).1

/-- C1 counterexample. For two scanner reports sharing key `(1, 0)` — first
`to = 4` (the shortest, reported first), then `to = 9` — the retained entry
has `To = 9`, not the shortest `to = 4` as claimed: the handler keeps the
longest. -/
theorem scan_collect_counterexample :
    (alookup (collectReports (fun _ => ⟨"p", 0⟩)
        ⟨0, 0, 0, 1, [], 40, false, []⟩ 20
        [⟨1, 0, 4⟩, ⟨1, 0, 9⟩]) (1, 0)).map ScanMatch.mto = some 9 ∧
    (9 : Nat) ≠ 4 := by
  refine ⟨by rw [scanEx_eval]; rfl, by decide⟩

/-! ## Format translator (`internal/parse.go`, `ParsePrintfFormat`)

The Go function scans the format string with the regular expression
`%([#+0\- ]*)(\d*)(?:\.(\d+))?[hlLjzt]*([diuoxXfFeEgGaAcsp])` via
`FindAllStringSubmatchIndex` and then builds the two regex strings from the
captured pieces.  The scanner below is that regex specialised to a
deterministic character-by-character parser: a candidate specifier starts
at a `%`, the flag/width/modifier character classes are pairwise disjoint
from each other's successors and from the conversion set, so greedy
consumption is exactly the regex's leftmost match, and a `%` that does not
head a full specifier is literal text.  Format strings are lists of
characters (the claims under study involve ASCII formats, where Go's byte
positions and characters coincide); the produced patterns are `String`s. -/

/-- A flag character: `[#+0\- ]`. -/
def isFlagChar (c : Char) : Bool :=
  c = '#' || c = '+' || c = '0' || c = '-' || c = ' '

/-- A decimal digit (`\d`). -/
def isDigitChar (c : Char) : Bool := '0' ≤ c && c ≤ '9'

/-- A length modifier: `[hlLjzt]`. -/
def isModChar (c : Char) : Bool :=
  c = 'h' || c = 'l' || c = 'L' || c = 'j' || c = 'z' || c = 't'

/-- A conversion character: `[diuoxXfFeEgGaAcsp]`. -/
def isConvChar (c : Char) : Bool :=
  ['d', 'i', 'u', 'o', 'x', 'X', 'f', 'F', 'e', 'E', 'g', 'G', 'a', 'A',
    'c', 's', 'p'].contains c

/-- One recognized conversion specifier: flags, width digits, optional
precision digits (present only when `.` is followed by at least one digit),
and the conversion character. -/
structure FmtSpec where
  flags : List Char
  width : List Char
  prec : Option (List Char)
  conv : Char
  deriving Repr, DecidableEq

/-- The optional `(?:\.(\d+))?` component: consumed only when a `.` is
immediately followed by at least one digit. -/
def parsePrec : List Char → Option (List Char) × List Char
  | [] => (none, [])
  | c :: rest =>
    if c = '.' then
      if rest.takeWhile isDigitChar = [] then (none, c :: rest)
      else (some (rest.takeWhile isDigitChar), rest.dropWhile isDigitChar)
    else (none, c :: rest)

/-- Remainder after the flags. -/
def afterFlags (l : List Char) : List Char := l.dropWhile isFlagChar

/-- Remainder after flags and width. -/
def afterWidth (l : List Char) : List Char :=
  (afterFlags l).dropWhile isDigitChar

/-- Remainder after flags, width and optional precision. -/
def afterPrec (l : List Char) : List Char := (parsePrec (afterWidth l)).2

/-- Remainder after flags, width, precision and length modifiers. -/
def afterMods (l : List Char) : List Char :=
  (afterPrec l).dropWhile isModChar

/-- Try to parse a specifier just after a `%`: on success return the
captured pieces and the remainder of the format. -/
def parseSpecAt (l : List Char) : Option (FmtSpec × List Char) :=
  match afterMods l with
  | [] => none
  | c :: rest =>
    if isConvChar c then
      some (⟨l.takeWhile isFlagChar, (afterFlags l).takeWhile isDigitChar,
        (parsePrec (afterWidth l)).1, c⟩, rest)
    else none

lemma dropWhile_length_le (p : Char → Bool) :
    ∀ l : List Char, (l.dropWhile p).length ≤ l.length := by
  intro l
  induction l with
  | nil => simp
  | cons c rest ih =>
    rw [List.dropWhile_cons]
    rcases hp : p c with _ | _
    · simp
    · simp only [if_pos rfl]
      exact Nat.le_succ_of_le ih

lemma parsePrec_length_le (m : List Char) :
    (parsePrec m).2.length ≤ m.length := by
  cases m with
  | nil => simp [parsePrec]
  | cons c rest =>
    by_cases hc : c = '.'
    · by_cases hd : rest.takeWhile isDigitChar = []
      · simp [parsePrec, hc, hd]
      · simp only [parsePrec, if_pos hc, if_neg hd]
        exact Nat.le_succ_of_le (dropWhile_length_le isDigitChar rest)
    · simp [parsePrec, hc]

lemma afterMods_length_le (l : List Char) :
    (afterMods l).length ≤ l.length :=
  le_trans (dropWhile_length_le isModChar _)
    (le_trans (parsePrec_length_le _)
      (le_trans (dropWhile_length_le isDigitChar _)
        (dropWhile_length_le isFlagChar l)))

lemma parseSpecAt_length {l : List Char} {sp : FmtSpec} {rest' : List Char}
    (h : parseSpecAt l = some (sp, rest')) : rest'.length < l.length := by
  unfold parseSpecAt at h
  rcases hm : afterMods l with _ | ⟨c, rest⟩
  · rw [hm] at h
    exact Option.noConfusion h
  · rw [hm] at h
    dsimp only at h
    by_cases hc : isConvChar c
    · rw [if_pos hc] at h
      have hr : rest = rest' := congrArg Prod.snd (Option.some.inj h)
      have hlen := afterMods_length_le l
      rw [hm] at hlen
      rw [← hr]
      simp only [List.length_cons] at hlen
      omega
    · rw [if_neg hc] at h
      exact Option.noConfusion h

/-- Attach one literal character in front of the first parsed token (it
belongs to the literal run preceding the next specifier, or to the trailing
literal when no specifier follows). -/
def prependLit (c : Char) :
    List (List Char × FmtSpec) × List Char →
    List (List Char × FmtSpec) × List Char
  | ([], trail) => ([], c :: trail)
  | ((lit, sp) :: ps, trail) => ((c :: lit, sp) :: ps, trail)

/-- The specifier scan (`FindAllStringSubmatchIndex` plus the `lastEnd`
bookkeeping of the build loop), with an explicit recursion bound: returns
the list of (preceding literal, specifier) pairs in order, and the trailing
literal.  Every step consumes at least one character, so any `fuel ≥ |l|`
gives the same result (`scanFmtF_fuel_adequate`); `scanFmt` supplies
`|l|`. -/
def scanFmtF : Nat → List Char → List (List Char × FmtSpec) × List Char
  | _, [] => ([], [])
  | 0, l => ([], l)
  | fuel + 1, c :: rest =>
    if c = '%' then
      match parseSpecAt rest with
      | some (sp, rest') =>
        (([], sp) :: (scanFmtF fuel rest').1, (scanFmtF fuel rest').2)
      | none => prependLit c (scanFmtF fuel rest)
    else prependLit c (scanFmtF fuel rest)

/-- The specifier scan at its natural fuel. -/
def scanFmt (l : List Char) : List (List Char × FmtSpec) × List Char :=
  scanFmtF l.length l

/-- The explicit bound is inessential: any fuel at least the length of the
input yields the same scan. -/
lemma scanFmtF_fuel_adequate :
    ∀ (fuel fuel' : Nat) (l : List Char), l.length ≤ fuel →
      l.length ≤ fuel' → scanFmtF fuel l = scanFmtF fuel' l := by
  intro fuel
  induction fuel with
  | zero =>
    intro fuel' l hl _
    have : l = [] := List.length_eq_zero.mp (Nat.le_zero.mp hl)
    subst this
    cases fuel' <;> rfl
  | succ fuel ih =>
    intro fuel' l hl hl'
    cases l with
    | nil => cases fuel' <;> rfl
    | cons c rest =>
      cases fuel' with
      | zero => simp at hl'
      | succ fuel'' =>
        simp only [List.length_cons, Nat.succ_le_succ_iff] at hl hl'
        show scanFmtF (fuel + 1) (c :: rest) = scanFmtF (fuel'' + 1) (c :: rest)
        simp only [scanFmtF]
        rcases hps : parseSpecAt rest with _ | ⟨sp, rest'⟩
        · dsimp only
          rw [ih fuel'' rest hl hl']
        · have hlt := parseSpecAt_length hps
          dsimp only
          rw [ih fuel'' rest hl hl', ih fuel'' rest' (by omega) (by omega)]

/-- Go `regexp.QuoteMeta`: escape every regex metacharacter
`\ . + * ? ( ) | [ ] { } ^ $` with a backslash. -/
def quoteMeta : List Char → List Char
  | [] => []
  | c :: rest =>
    if ['\\', '.', '+', '*', '?', '(', ')', '|', '[', ']', '\x7b', '\x7d',
        '^', '$'].contains c
    then '\\' :: c :: quoteMeta rest
    else c :: quoteMeta rest

/-- Decimal rendering of a natural number (Go `%d` / `strconv.Itoa` on the
non-negative widths and precisions that occur here). -/
def natStr (n : Nat) : String := String.mk (Nat.toDigits 10 n)

/-- `strconv.Atoi` on a digit run (width or precision capture): the value,
or `none` on 64-bit overflow (in which case Go keeps the default). -/
def atoiDigits (ds : List Char) : Option Nat :=
  let n := ds.foldl (fun acc c => acc * 10 + (c.toNat - '0'.toNat)) 0
  if n ≤ 9223372036854775807 then some n else none

/-- `width`: `0` unless the width digits parse. -/
def widthOf (ws : List Char) : Nat := (atoiDigits ws).getD 0

/-- `precision`: `-1` (absent) unless the precision digits parse. -/
def precOf : Option (List Char) → Int
  | none => -1
  | some ds =>
    match atoiDigits ds with
    | some p => (p : Int)
    | none => -1

/-- The width wrapper for the confirm pattern (`widthWrap` in the source):
left-aligned fields get `(?=.{W,})core *`, zero-padded right-aligned
numeric fields `(?=.{W,})0*core`, other right-aligned fields
`(?=.{W,}) *core`; no wrapping when `width ≤ 0`. -/
def widthWrap (width : Nat) (leftAlign zeroPad : Bool) (numeric : Bool)
    (core : String) : String :=
  if width = 0 then core
  else if leftAlign then
    "(?=.\x7b" ++ natStr width ++ ",\x7d)" ++ core ++ " *"
  else if zeroPad && numeric then
    "(?=.\x7b" ++ natStr width ++ ",\x7d)0*" ++ core
  else
    "(?=.\x7b" ++ natStr width ++ ",\x7d) *" ++ core

/-- The per-specifier synthesis (`switch spec` in the source): returns the
width-wrapped named argument pattern for the confirm regex and the
hyperscan argument pattern. -/
def specPatterns (salt : String) (argIdx : Nat) (sp : FmtSpec) :
    String × String :=
  let leftAlign := sp.flags.contains '-'
  let zeroPad := !leftAlign && sp.flags.contains '0'
  let altForm := sp.flags.contains '#'
  let width := widthOf sp.width
  let precision := precOf sp.prec
  let argName := "arg" ++ salt ++ natStr argIdx
  let named (ncore : String) : String :=
    "(?<" ++ argName ++ ">" ++ ncore ++ ")"
  match sp.conv with
  | 'd' | 'i' =>
    let p := precision.toNat
    let ncore := "[-+]?\\d\x7b" ++ natStr p ++ ",\x7d"
    (widthWrap width leftAlign zeroPad true (named ncore), "[-+]?\\d+?")
  | 'u' =>
    let p := precision.toNat
    let ncore := "\\d\x7b" ++ natStr p ++ ",\x7d"
    (widthWrap width leftAlign zeroPad true (named ncore), "\\d+?")
  | 'o' =>
    let p := precision.toNat
    let prefix_ := if altForm then "0?" else ""
    let ncore := prefix_ ++ "[0-7]\x7b" ++ natStr p ++ ",\x7d"
    (widthWrap width leftAlign zeroPad true (named ncore), "[0-7]+?")
  | 'x' | 'X' =>
    let p := precision.toNat
    let prefix_ := if altForm then "0[xX]?" else ""
    let ncore := prefix_ ++ "[0-9A-Fa-f]\x7b" ++ natStr p ++ ",\x7d"
    (widthWrap width leftAlign zeroPad true (named ncore), "[0-9A-Fa-f]+?")
  | 'f' | 'F' =>
    let p := if precision < 0 then 6 else precision.toNat
    let ncore :=
      if p = 0 && altForm then "[-+]?(?:inf|nan|\\d+\\.)"
      else if p = 0 then "[-+]?(?:inf|nan|\\d+)"
      else "[-+]?(?:inf|nan|\\d+(?:\\.\\d\x7b" ++ natStr p ++ "\x7d)?)"
    (widthWrap width leftAlign zeroPad true (named ncore),
      "[-+]?(?:\\d+?(?:\\.\\d+?)?|inf|nan)")
  | 'e' | 'E' =>
    let p := if precision < 0 then 6 else precision.toNat
    let fraction :=
      if 0 < p then "\\.\\d\x7b" ++ natStr p ++ "\x7d"
      else if altForm then "\\." else ""
    let ncore := "[-+]?(?:inf|nan|\\d" ++ fraction ++ "[eE][+-]?\\d+)"
    (widthWrap width leftAlign zeroPad true (named ncore),
      "[-+]?(?:\\d+?(?:\\.\\d+?)?[eE][+-]?\\d+?|inf|nan)")
  | 'g' | 'G' =>
    let ncore := "[-+]?(?:inf|nan|\\d+(?:\\.\\d+)?(?:[eE][+-]?\\d+)?)"
    (widthWrap width leftAlign zeroPad true (named ncore),
      "[-+]?(?:\\d+?(?:\\.\\d+?)?(?:[eE][+-]?\\d+?)?|inf|nan)")
  | 'a' | 'A' =>
    let p := if precision < 0 then 6 else precision.toNat
    let frac :=
      if 0 < p then "\\.[0-9A-Fa-f]\x7b" ++ natStr p ++ "\x7d"
      else if altForm then "\\." else ""
    let ncore := "[-+]?(?:inf|nan|0[xX][0-9A-Fa-f]+" ++ frac ++
      "[pP][+-]?\\d+)"
    (widthWrap width leftAlign zeroPad true (named ncore),
      "[-+]?(?:0[xX][0-9A-Fa-f]+?(?:\\.[0-9A-Fa-f]+?)?[pP][+-]?\\d+?|inf|nan)")
  | 'c' =>
    (widthWrap width leftAlign zeroPad false (named "."), ".")
  | 's' =>
    if 0 ≤ precision then
      let ncore := ".\x7b0," ++ natStr precision.toNat ++ "\x7d"
      (widthWrap width leftAlign zeroPad false (named ncore), ".+?")
    else
      (widthWrap width leftAlign zeroPad false (named ".+?"), ".+?")
  | 'p' =>
    (widthWrap width leftAlign zeroPad false (named "0x[0-9A-Fa-f]+?"),
      "0x[0-9A-Fa-f]+?")
  | _ =>
    (widthWrap width leftAlign zeroPad false (named ".+?"), ".+?")

/-- The build loop over the scanned specifiers, starting at argument index
`k`: produces the confirm-pattern body, the hyperscan body, the emitted
argument capture-group names in order, and the argument count. -/
def buildParts (salt : String) :
    List (List Char × FmtSpec) → Nat → String × String × List String × Nat
  | [], _ => ("", "", [], 0)
  | (lit, sp) :: rest, k =>
    (String.mk (quoteMeta lit) ++ (specPatterns salt k sp).1 ++
        (buildParts salt rest (k + 1)).1,
      String.mk (quoteMeta lit) ++ (specPatterns salt k sp).2 ++
        (buildParts salt rest (k + 1)).2.1,
      ("arg" ++ salt ++ natStr k) :: (buildParts salt rest (k + 1)).2.2.1,
      (buildParts salt rest (k + 1)).2.2.2 + 1)

/-- The result record of the format translator (`ParsedFormatter`). -/
structure ParsedFormatter where
  ArgCnt : Nat
  Regex : String
  HyperScanRegex : String
  deriving Repr, DecidableEq

/-- `ParsePrintfFormat`. The second component is the returned `error`,
which the source never sets. -/
def ParsePrintfFormat (format : List Char) (topLevelGroupName : String) :
    ParsedFormatter × Option String :=
  match scanFmt format with
  | ([], _) =>
    let escaped := String.mk (quoteMeta format)
    (⟨0, "(?<" ++ topLevelGroupName ++ ">" ++ escaped ++ ")", escaped⟩,
      none)
  | (specs, trail) =>
    (⟨(buildParts topLevelGroupName specs 0).2.2.2,
      "(?<" ++ topLevelGroupName ++ ">" ++
        (buildParts topLevelGroupName specs 0).1 ++
        String.mk (quoteMeta trail) ++ ")",
      (buildParts topLevelGroupName specs 0).2.1 ++
        String.mk (quoteMeta trail)⟩, none)

/-- The argument capture-group names emitted for a format, in emission
order. -/
def argNamesOf (format : List Char) (topLevelGroupName : String) :
    List String :=
  (buildParts topLevelGroupName (scanFmt format).1 0).2.2.1

/-- C8 counterexample. For `%#x` the generated confirm pattern makes the
leading `0` mandatory and only the `x` optional (`0[xX]?`): it is not the
claimed `(0[xX])?`, under which a bare hex string with no leading `0` would
still match the core. -/
theorem hex_alt_prefix_counterexample :
    (ParsePrintfFormat "%#x".toList "s").1.Regex
      = "(?<s>(?<args0>0[xX]?[0-9A-Fa-f]\x7b0,\x7d))" ∧
    (ParsePrintfFormat "%#x".toList "s").1.Regex
      ≠ "(?<s>(?<args0>(0[xX])?[0-9A-Fa-f]\x7b0,\x7d))" := by
  refine ⟨by decide, by decide⟩

/-- C8 (amended). For `%x`/`%X` with the `#` flag the confirm-pattern
argument core is `0[xX]?[0-9A-Fa-f]{max(prec,0),}`: a mandatory `0`
followed by an optional `x` or `X`, so a bare hex string with no leading
`0` is rejected by the core (while `0` followed by hex digits without an
`x` is accepted). -/
theorem hex_alt_prefix_mandatory_zero :
    (ParsePrintfFormat "%#x".toList "s").1.Regex
      = "(?<s>(?<args0>0[xX]?[0-9A-Fa-f]\x7b0,\x7d))" ∧
    (ParsePrintfFormat "%#.5x".toList "s").1.Regex
      = "(?<s>(?<args0>0[xX]?[0-9A-Fa-f]\x7b5,\x7d))" ∧
    (ParsePrintfFormat "%#X".toList "s").1.Regex
      = "(?<s>(?<args0>0[xX]?[0-9A-Fa-f]\x7b0,\x7d))" ∧
    (ParsePrintfFormat "%x".toList "s").1.Regex
      = "(?<s>(?<args0>[0-9A-Fa-f]\x7b0,\x7d))" := by
  refine ⟨by decide, by decide, by decide, by decide⟩

lemma buildParts_cnt_names :
    ∀ (specs : List (List Char × FmtSpec)) (salt : String) (k : Nat),
    (buildParts salt specs k).2.2.2 = specs.length ∧
    (buildParts salt specs k).2.2.1
      = (List.range' k specs.length).map
          (fun j => "arg" ++ salt ++ natStr j) := by
  intro specs
  induction specs with
  | nil =>
    intro salt k
    exact ⟨rfl, rfl⟩
  | cons p rest ih =>
    intro salt k
    obtain ⟨lit, sp⟩ := p
    constructor
    · show (buildParts salt rest (k + 1)).2.2.2 + 1 = rest.length + 1
      rw [(ih salt (k + 1)).1]
    · show ("arg" ++ salt ++ natStr k) ::
          (buildParts salt rest (k + 1)).2.2.1
        = (List.range' k (rest.length + 1)).map
            (fun j => "arg" ++ salt ++ natStr j)
      rw [(ih salt (k + 1)).2, List.range'_succ, List.map_cons]

/-- C10. `ParsePrintfFormat` is total and never fails: the returned error
is always `nil`; `ArgCnt` equals the number of recognized conversion
specifiers found by the scan; the argument capture groups emitted into the
confirm regex are named `arg<salt>0 … arg<salt>(ArgCnt-1)` in left-to-right
order; and with zero specifiers the confirm regex is the metacharacter-
escaped literal wrapped only in the outer named group. -/
theorem parsePrintfFormat_total (format : List Char) (salt : String) :
    (ParsePrintfFormat format salt).2 = none ∧
    (ParsePrintfFormat format salt).1.ArgCnt = (scanFmt format).1.length ∧
    argNamesOf format salt
      = (List.range (ParsePrintfFormat format salt).1.ArgCnt).map
          (fun k => "arg" ++ salt ++ natStr k) ∧
    ((scanFmt format).1 = [] →
      (ParsePrintfFormat format salt).1.Regex
        = "(?<" ++ salt ++ ">" ++ String.mk (quoteMeta format) ++ ")") := by
  rcases hscan : scanFmt format with ⟨specs, trail⟩
  cases specs with
  | nil =>
    refine ⟨?_, ?_, ?_, ?_⟩
    · simp [ParsePrintfFormat, hscan]
    · simp [ParsePrintfFormat, hscan]
    · simp [argNamesOf, hscan, buildParts, ParsePrintfFormat]
    · intro _
      simp [ParsePrintfFormat, hscan]
  | cons p rest =>
    have hb := buildParts_cnt_names (p :: rest) salt 0
    refine ⟨?_, ?_, ?_, ?_⟩
    · simp [ParsePrintfFormat, hscan]
    · show (ParsePrintfFormat format salt).1.ArgCnt = (p :: rest).length
      rw [show (ParsePrintfFormat format salt).1.ArgCnt
          = (buildParts salt (p :: rest) 0).2.2.2 by
        simp [ParsePrintfFormat, hscan]]
      exact hb.1
    · rw [show (ParsePrintfFormat format salt).1.ArgCnt
          = (buildParts salt (p :: rest) 0).2.2.2 by
        simp [ParsePrintfFormat, hscan]]
      rw [show argNamesOf format salt
          = (buildParts salt (p :: rest) 0).2.2.1 by
        simp [argNamesOf, hscan]]
      rw [hb.1, hb.2, List.range_eq_range']
    · intro hcontra
      exact absurd hcontra (List.cons_ne_nil p rest)

/-- Witness for C10: on `fd=%d bytes=%d` the parser returns no error, two
arguments named `args0`, `args1`; on the specifier-free `abc` the confirm
regex is the escaped literal in the outer group. -/
theorem parsePrintfFormat_total_witness :
    (ParsePrintfFormat "fd=%d bytes=%d".toList "s").2 = none ∧
    (ParsePrintfFormat "fd=%d bytes=%d".toList "s").1.ArgCnt = 2 ∧
    argNamesOf "fd=%d bytes=%d".toList "s" = ["args0", "args1"] ∧
    (ParsePrintfFormat "abc".toList "s").1.Regex = "(?<s>abc)" := by
  have h1 := parsePrintfFormat_total "fd=%d bytes=%d".toList "s"
  have h2 := parsePrintfFormat_total "abc".toList "s"
  refine ⟨h1.1, ?_, ?_, ?_⟩
  · rw [h1.2.1]
    decide
  · rw [h1.2.2.1]
    have : (ParsePrintfFormat "fd=%d bytes=%d".toList "s").1.ArgCnt = 2 := by
      rw [h1.2.1]
      decide
    rw [this]
    decide
  · rw [h2.2.2.2 (by decide)]
    decide

/-! ## Pattern cache key (`internal/view.go:92-129`,
`buildOrLoadCachedHSPatternsDB`)

The source creates `fnv.New64()` — Go's FNV-**1** (not FNV-1a) — writes the
version tag `"HSPATV1"`, then each pattern expression in order, and renders
the cache file name with `fmt.Sprintf("%x.hsdb", hash.Sum64())`. -/

/-- One byte of 64-bit FNV-1: `hash = (hash * prime) ^ byte (mod 2^64)`
(`fnv.sum64.Write` for `fnv.New64()`). -/
def fnv1Step (h b : Nat) : Nat :=
  ((h * 1099511628211) % 18446744073709551616) ^^^ b

/-- 64-bit FNV-1 of a byte sequence, from the standard offset basis. -/
def fnv1Hash (bytes : List Nat) : Nat :=
  bytes.foldl fnv1Step 14695981039346656037

/-- Modelled from the spec: one byte of 64-bit FNV-**1a**
(`hash = (hash ^ byte) * prime`), the variant the spec names; the source
does not implement it (it calls `fnv.New64`, which is FNV-1). -/
def fnv1aStep (h b : Nat) : Nat :=
  ((h ^^^ b) * 1099511628211) % 18446744073709551616

/-- Modelled from the spec: 64-bit FNV-1a of a byte sequence. -/
def fnv1aHash (bytes : List Nat) : Nat :=
  bytes.foldl fnv1aStep 14695981039346656037

/-- The bytes of an ASCII string. -/
def strBytes (s : String) : List Nat := s.toList.map Char.toNat

/-- The cache key: write the tag `"HSPATV1"`, then every pattern expression
in order, into the FNV-1 state, and take `Sum64`. -/
def cacheKey (exprs : List (List Nat)) : Nat :=
  exprs.foldl (fun h e => e.foldl fnv1Step h) (fnv1Hash (strBytes "HSPATV1"))

/-- Go `%x` on a `uint64`: minimal-length lowercase hex, no zero padding. -/
def hexMin (n : Nat) : String := String.mk (Nat.toDigits 16 n)

/-- The cache file name `fmt.Sprintf("%x.hsdb", hash.Sum64())`. -/
def cacheFileName (exprs : List (List Nat)) : String :=
  hexMin (cacheKey exprs) ++ ".hsdb"

/-- Modelled from the spec: the hash "rendered as 16 hex digits" — i.e.
zero-padded on the left to width 16. -/
def hexPad16 (n : Nat) : String :=
  String.mk (List.replicate (16 - (Nat.toDigits 16 n).length) '0'
    ++ Nat.toDigits 16 n)

lemma foldl_fnv1_flatten :
    ∀ (exprs : List (List Nat)) (h0 : Nat),
    exprs.foldl (fun h e => e.foldl fnv1Step h) h0
      = exprs.flatten.foldl fnv1Step h0 := by
  intro exprs
  induction exprs with
  | nil =>
    intro h0
    rfl
  | cons e rest ih =>
    intro h0
    rw [List.foldl_cons, List.flatten_cons, List.foldl_append, ih]

/-- C7 counterexample. The cache key is not the FNV-1a hash the claim
names: for the single pattern `"a"` the computed key differs from the
64-bit FNV-1a of the same bytes (the source calls `fnv.New64`, the FNV-1
variant).  And the file name is not always 16 hex digits: for the single
pattern `"pat100"` the key's minimal hex rendering has 15 digits, so the
file name has 20 characters (15 + len(".hsdb")), not 21. -/
theorem cache_key_counterexample :
    cacheKey [strBytes "a"]
      ≠ fnv1aHash (strBytes "HSPATV1" ++ strBytes "a") ∧
    (cacheFileName [strBytes "pat100"]).length = 20 ∧
    hexPad16 (cacheKey [strBytes "pat100"])
      ≠ hexMin (cacheKey [strBytes "pat100"]) := by
  refine ⟨by decide, by decide, by decide⟩

/-- C7 (amended). The pattern-cache key for an ordered sequence of
prefilter patterns is the 64-bit FNV-**1** hash of the fixed version tag
`"HSPATV1"` followed by each pattern's expression in order, and the cache
file name is that hash rendered by `%x` — minimal-length lowercase hex,
not zero-padded to 16 digits — with extension `.hsdb`. -/
theorem cache_key_fnv1_unpadded (exprs : List (List Nat)) :
    cacheKey exprs = fnv1Hash (strBytes "HSPATV1" ++ exprs.flatten) ∧
    cacheFileName exprs = hexMin (cacheKey exprs) ++ ".hsdb" := by
  constructor
  · rw [cacheKey, foldl_fnv1_flatten, fnv1Hash, fnv1Hash, List.foldl_append]
  · rfl

/-! ## Engine construction (`internal/view.go:131-207`, `NewViewer`)

The corpus is a Go map from project name to its definitions and calls; the
list order models its iteration order.  The two native compilations
(`pcre2.CompileJIT`, `hs.NewPattern`) are external and modelled as
succeeding; the hyperscan minimum-match-width query is the oracle
`minWidth`.  A Go `nil`-pointer dereference is modelled as the distinct
outcome `BuildErr.panicked` — it crashes the process and is *not* a
returned error. -/

/-- `LogCallDefinition` (the fields `NewViewer` reads). `syn` is the
`Syntax` field. -/
structure LogCallDefinition where
  id : String
  syn : String
  linkTemplate : String
  deriving Repr, DecidableEq

/-- `LogCall` (the fields `NewViewer` reads). -/
structure LogCall where
  file : String
  line : Int
  definitionID : String
  formatString : List Char
  argumentExprs : List String
  deriving Repr, DecidableEq

/-- How construction can fail: a returned error, or a runtime panic. -/
inductive BuildErr where
  | err (msg : String)
  | panicked (msg : String)
  deriving Repr, DecidableEq

/-- The state accumulated by `NewViewer`: the keys of `compiledRegex`, the
enrolled hyperscan pattern expressions, `compiledAllPatternIDToLogCallMap`,
and `definitionIDToDefinitionMap`. -/
structure BuildSt where
  regexKeys : List LogCallRef
  hsPatterns : List String
  idMap : List (Nat × LogCallRef)
  defsGlobal : List (String × LogCallDefinition)
  deriving Repr, DecidableEq

/-- `definitionsMap`: per-project map built by `definitionsMap[def.ID] =
&def` (insert-or-overwrite; Go ≥ 1.22 gives each iteration its own
variable, so entries are distinct definitions). -/
def buildDefsMap (defs : List LogCallDefinition) :
    List (String × LogCallDefinition) :=
  defs.foldl (fun m d => mupsert m d.id d) []

/-- One iteration of the call loop.  An unknown `definition_id` makes
`definitionsMap[call.DefinitionID]` return `nil` and the subsequent
`def.Syntax` read panics.  No comparison between the parsed argument count
and `len(call.ArgumentExprs)` occurs anywhere. -/
def processCall (minWidth : String → Nat) (project : String)
    (defsMap : List (String × LogCallDefinition)) (i : Nat) (call : LogCall)
    (st : BuildSt) : Except BuildErr BuildSt :=
  match alookup defsMap call.definitionID with
  | none => .error (.panicked "nil pointer dereference: def.Syntax")
  | some d =>
    if d.syn = "printflike" then
      match ParsePrintfFormat call.formatString
          (project ++ "__" ++ natStr i ++ "__") with
      | (_, some e) =>
        .error (.err ("failed to parse printf-like format string: " ++ e))
      | (parsed, none) =>
        if minWidth (parsed.HyperScanRegex ++ "$") = 0 then
          .ok { st with regexKeys := st.regexKeys ++ [⟨project, i⟩] }
        else
          match alookup st.idMap (st.idMap.length + 1) with
          | some _ => .error (.err "duplicate hyperscan pattern ID")
          | none => .ok { st with
              regexKeys := st.regexKeys ++ [⟨project, i⟩],
              hsPatterns := st.hsPatterns ++ [parsed.HyperScanRegex ++ "$"],
              idMap := st.idMap ++ [(st.idMap.length + 1, ⟨project, i⟩)] }
    else .error (.err ("unsupported log call syntax: " ++ d.syn))

/-- The call loop (`for i, call := range calls.Calls`). -/
def processCallsLoop (minWidth : String → Nat) (project : String)
    (defsMap : List (String × LogCallDefinition)) :
    Nat → List LogCall → BuildSt → Except BuildErr BuildSt
  | _, [], st => .ok st
  | i, c :: rest, st =>
    match processCall minWidth project defsMap i c st with
    | .error e => .error e
    | .ok st' => processCallsLoop minWidth project defsMap (i + 1) rest st'

/-- The second per-project loop: register definitions globally, rejecting
duplicate ids. -/
def registerDefs : List LogCallDefinition →
    List (String × LogCallDefinition) →
    Except BuildErr (List (String × LogCallDefinition))
  | [], g => .ok g
  | d :: rest, g =>
    match alookup g d.id with
    | some _ => .error (.err ("duplicate definition ID: " ++ d.id))
    | none => registerDefs rest (g ++ [(d.id, d)])

/-- One project: skip when filtered out, else run both loops. -/
def processProject (minWidth : String → Nat) (vc : ViewConfig)
    (project : String) (defs : List LogCallDefinition)
    (calls : List LogCall) (st : BuildSt) : Except BuildErr BuildSt :=
  if 0 < vc.projectFilter.length ∧ ¬ vc.projectFilter.contains project then
    .ok st
  else
    match processCallsLoop minWidth project (buildDefsMap defs) 0 calls st with
    | .error e => .error e
    | .ok st' =>
      match registerDefs defs st'.defsGlobal with
      | .error e => .error e
      | .ok g => .ok { st' with defsGlobal := g }

/-- The project loop of `NewViewer`. -/
def newViewerLoop (minWidth : String → Nat) (vc : ViewConfig) :
    List (String × List LogCallDefinition × List LogCall) → BuildSt →
    Except BuildErr BuildSt
  | [], st => .ok st
  | (p, defs, calls) :: rest, st =>
    match processProject minWidth vc p defs calls st with
    | .error e => .error e
    | .ok st' => newViewerLoop minWidth vc rest st'

/-- `NewViewer` up to the cache build (which is external I/O and succeeds
in the model). -/
def NewViewer (minWidth : String → Nat) (vc : ViewConfig)
    (corpus : List (String × List LogCallDefinition × List LogCall)) :
    Except BuildErr BuildSt :=
  newViewerLoop minWidth vc corpus ⟨[], [], [], []⟩

lemma parsePrintf_err_none (format : List Char) (salt : String) :
    (ParsePrintfFormat format salt).2 = none := by
  rcases hscan : scanFmt format with ⟨specs, trail⟩
  cases specs <;> simp [ParsePrintfFormat, hscan]

/-- Pattern ids assigned so far never exceed the number of enrolled
patterns (they are `1, …, |idMap|`). -/
def idMapBounded (m : List (Nat × LogCallRef)) : Prop :=
  ∀ k ∈ m.map Prod.fst, k ≤ m.length

lemma processCallsLoop_ok (mw : String → Nat) (p : String)
    (defsMap : List (String × LogCallDefinition)) :
    ∀ (calls : List LogCall) (i : Nat) (st : BuildSt),
    (∀ c ∈ calls, ∃ d, alookup defsMap c.definitionID = some d ∧
      d.syn = "printflike") →
    idMapBounded st.idMap →
    ∃ st', processCallsLoop mw p defsMap i calls st = .ok st' ∧
      idMapBounded st'.idMap ∧ st'.defsGlobal = st.defsGlobal := by
  intro calls
  induction calls with
  | nil =>
    intro i st _ hb
    exact ⟨st, rfl, hb, rfl⟩
  | cons c rest ih =>
    intro i st hres hb
    obtain ⟨d, hd, hsyn⟩ := hres c (List.mem_cons_self c rest)
    have hnext : ∀ c' ∈ rest, ∃ d', alookup defsMap c'.definitionID = some d' ∧
        d'.syn = "printflike" :=
      fun c' hc' => hres c' (List.mem_cons_of_mem c hc')
    rcases hpf : ParsePrintfFormat c.formatString
        (p ++ "__" ++ natStr i ++ "__") with ⟨parsed, perr⟩
    have herr : perr = none := by
      have := parsePrintf_err_none c.formatString (p ++ "__" ++ natStr i ++ "__")
      rw [hpf] at this
      exact this
    subst herr
    simp only [processCallsLoop, processCall]
    rw [hd]
    dsimp only
    rw [if_pos hsyn, hpf]
    dsimp only
    by_cases hw : mw (parsed.HyperScanRegex ++ "$") = 0
    · rw [if_pos hw]
      dsimp only
      exact ih (i + 1) _ hnext hb
    · have hnone : alookup st.idMap (st.idMap.length + 1) = none := by
        rcases hlk : alookup st.idMap (st.idMap.length + 1) with _ | v
        · rfl
        · have hmem := (alookup_isSome_iff_mem st.idMap
            (st.idMap.length + 1)).mp (by simp [hlk])
          have := hb _ hmem
          omega
      rw [if_neg hw, hnone]
      dsimp only
      have hb2 : idMapBounded
          (st.idMap ++ [(st.idMap.length + 1, (⟨p, i⟩ : LogCallRef))]) := by
        intro k hk
        simp only [List.map_append, List.map_cons, List.map_nil,
          List.mem_append, List.mem_cons, List.not_mem_nil, or_false,
          List.length_append, List.length_cons, List.length_nil] at hk ⊢
        rcases hk with hk | hk
        · have := hb k hk
          omega
        · omega
      exact ih (i + 1) _ hnext hb2

lemma registerDefs_ok :
    ∀ (defs : List LogCallDefinition) (g : List (String × LogCallDefinition)),
    (defs.map LogCallDefinition.id).Nodup →
    (∀ d ∈ defs, alookup g d.id = none) →
    ∃ g', registerDefs defs g = .ok g' := by
  intro defs
  induction defs with
  | nil =>
    intro g _ _
    exact ⟨g, rfl⟩
  | cons d rest ih =>
    intro g hnd hfresh
    simp only [List.map_cons, List.nodup_cons] at hnd
    have hdg : alookup g d.id = none := hfresh d (List.mem_cons_self d rest)
    rw [show registerDefs (d :: rest) g = registerDefs rest (g ++ [(d.id, d)]) by
      rw [registerDefs, hdg]]
    refine ih (g ++ [(d.id, d)]) hnd.2 ?_
    intro d' hd'
    rw [alookup_append, hfresh d' (List.mem_cons_of_mem d hd')]
    have hne : ¬ d.id = d'.id := by
      intro hh
      exact hnd.1 (hh ▸ List.mem_map_of_mem LogCallDefinition.id hd')
    simp [alookup, hne]

/-- C6 (amended).  `NewViewer` performs no argument-count validation at
all: for any single-project corpus whose calls all reference known
`printflike` definitions and whose definition ids are distinct,
construction succeeds — regardless of any mismatch between a call's
format-string argument count and `len(argument_exprs)` (the mismatch
surfaces only later, as an index-out-of-range panic during rendering).
A call referencing an unknown `definition_id` does abort construction —
but by a nil-pointer dereference panic, not a returned error. -/
theorem newViewer_no_construction_checks :
    (∀ (mw : String → Nat) (vc : ViewConfig) (p : String)
        (defs : List LogCallDefinition) (calls : List LogCall),
      vc.projectFilter = [] →
      (defs.map LogCallDefinition.id).Nodup →
      (∀ c ∈ calls, ∃ d, alookup (buildDefsMap defs) c.definitionID = some d ∧
        d.syn = "printflike") →
      ∃ st, NewViewer mw vc [(p, defs, calls)] = .ok st) ∧
    NewViewer (fun _ => 1) ⟨4, 3, 0, 1, [], 40, false, []⟩
      [("p", [⟨"d", "printflike", "t"⟩],
        [⟨"a.c", 10, "nosuch", "%d".toList, ["x"]⟩])]
      = .error (.panicked "nil pointer dereference: def.Syntax") := by
  constructor
  · intro mw vc p defs calls hf hnd hres
    obtain ⟨st', hok, _, hdg⟩ := processCallsLoop_ok mw p (buildDefsMap defs)
      calls 0 ⟨[], [], [], []⟩ hres (by intro k hk; simp at hk)
    obtain ⟨g', hr⟩ := registerDefs_ok defs st'.defsGlobal hnd
      (by
        intro d _
        rw [hdg]
        rfl)
    refine ⟨{ st' with defsGlobal := g' }, ?_⟩
    show newViewerLoop mw vc [(p, defs, calls)] ⟨[], [], [], []⟩ = _
    simp only [newViewerLoop, processProject]
    rw [if_neg (by simp [hf]), hok]
    dsimp only
    rw [hr]
  · rfl

/-- Witness for C6 (amended): a call whose three argument expressions do
not match its one-specifier format string still constructs successfully. -/
theorem newViewer_no_construction_checks_witness :
    ∃ st, NewViewer (fun _ => 1) ⟨4, 3, 0, 1, [], 40, false, []⟩
      [("q", [⟨"def1", "printflike", "t"⟩],
        [⟨"b.c", 3, "def1", "%s".toList, ["a", "b", "c"]⟩])] = .ok st := by
  apply newViewer_no_construction_checks.1 (fun _ => 1)
    ⟨4, 3, 0, 1, [], 40, false, []⟩ "q" [⟨"def1", "printflike", "t"⟩]
    [⟨"b.c", 3, "def1", "%s".toList, ["a", "b", "c"]⟩] rfl (by decide)
  intro c hc
  have hcc : c = ⟨"b.c", 3, "def1", "%s".toList, ["a", "b", "c"]⟩ :=
    List.mem_singleton.mp hc
  subst hcc
  exact ⟨⟨"def1", "printflike", "t"⟩, by decide, rfl⟩

/-- C6 counterexample.  A corpus whose single call has a two-specifier
format string (`%d %d`, `ArgCnt = 2`) but only one argument expression
constructs successfully: `NewViewer` returns no error for the
argument-count mismatch, contradicting the claim that it fails. -/
theorem newViewer_argcount_counterexample :
    (ParsePrintfFormat "%d %d".toList "p__0__").1.ArgCnt = 2 ∧
    (["x"] : List String).length = 1 ∧
    (NewViewer (fun _ => 1) ⟨4, 3, 0, 1, [], 40, false, []⟩
      [("p", [⟨"d", "printflike", "t"⟩],
        [⟨"a.c", 10, "d", "%d %d".toList, ["x"]⟩])]).isOk = true := by
  refine ⟨by decide, by decide, by decide⟩

end Logalign
